import Mathlib

/-!
Shallow embedding of the interpPES package (file interpPES/__init__.py):
interpolation between stationary points on a potential-energy surface.

The code of the repository itself (interp_by_neb, interp_by_multiscale_neb,
aug_point, interp_PES) is translated function by function.  The ASE
collaborators it calls (NEB.interpolate, MDMin.run,
minimize_rotation_and_translation, read) are external to the repository;
they are modelled from the contracts the specification states for them in
its External Interfaces section: geometry is abstracted to a single
integer coordinate per configuration, and each primitive touches exactly
the state its contract allows it to touch.
-/

namespace InterpPES

/-- Model of an ASE Atoms object: an object identity (Python objects are
distinguished by identity where aliasing matters), an abstract geometry
coordinate, and the attached calculator / constraint slots. -/
structure Atoms where
  oid : Nat
  pos : Int
  hasCalc : Bool
  constr : Bool
  deriving DecidableEq, Repr, Inhabited

/-- Ambient execution state threaded through the embedding: the allocator
for fresh object identities (copies of Atoms objects, file reads) and
counters for the observable external effects: calculator-factory
invocations, MDMin relaxation runs, and alignment calls. -/
structure St where
  fresh : Nat
  calcCalls : Nat
  relaxRuns : Nat
  alignCalls : Nat
  deriving DecidableEq, Repr, Inhabited

/-- Model of the ASE copy method on Atoms: a fresh object with the same
geometry.  ASE copies do not carry the calculator; constraints are kept. -/
def Atoms.copy (a : Atoms) (s : St) : Atoms × St :=
  ({ oid := s.fresh, pos := a.pos, hasCalc := false, constr := a.constr },
   { s with fresh := s.fresh + 1 })

/-- Modelled from the spec: the geometric placement rule used by the band
interpolation primitive for intermediate image k of a band with n
sub-segments between the two endpoint coordinates.  Both named methods
(idpp and linear) are geometric placements; the exact numeric rule is the
business of the external collaborator, only its shape matters here, so the
method tag does not change the modelled placement. -/
def interpPos (_method : String) (pInit pFinal : Int) (k n : Nat) : Int :=
  pInit + (pFinal - pInit) * k / n

/-- Modelled from the spec: NEB.interpolate, the band interpolation
primitive, acting on the intermediate images of the band.  It writes new
positions to the intermediate images (the endpoints are fixed) and
preserves the image objects themselves.  The band formed from mids has
one more sub-segment than intermediate images. -/
def bandInterpolateMid (method : String) (pInit pFinal : Int)
    (mids : List Atoms) : List Atoms :=
  mids.enum.map fun ka =>
    { ka.2 with pos := interpPos method pInit pFinal (ka.1 + 1) (mids.length + 1) }

/-- Modelled from the spec: one step of the relaxation primitive on the
interior coordinates of a band with fixed endpoint coordinates.  Each
interior coordinate moves toward the mean of itself and its two
neighbours, an elastic-band style smoothing; only positions change. -/
def smoothOnce (pInit pFinal : Int) (ps : List Int) : List Int :=
  (List.range ps.length).map fun k =>
    let left := if k = 0 then pInit else ps.getD (k - 1) 0
    let right := if k + 1 = ps.length then pFinal else ps.getD (k + 1) 0
    (left + ps.getD k 0 + right) / 3

/-- Modelled from the spec: MDMin relaxation of a NEB band, a best-effort
in-place update of the intermediate image positions with fixed endpoints,
bounded by the step budget.  The force threshold only decides how many of
the budgeted steps run; the model runs the full budget, which realises
the same contract (best effort, convergence neither guaranteed nor
observable in the structure of the band). -/
def mdminMid (_fmax : Rat) (steps : Nat) (pInit pFinal : Int)
    (mids : List Atoms) : List Atoms :=
  let ps := Nat.iterate (smoothOnce pInit pFinal) steps (mids.map Atoms.pos)
  (mids.zip ps).map fun ap => { ap.1 with pos := ap.2 }

/-- Image-construction loop of interp_by_neb: n fresh copies of the
initial image; each copy is given a calculator from the factory and the
constraint when those are supplied. -/
def mkMiddles (initial : Atoms) (calculator constraint : Bool) :
    Nat → St → List Atoms × St
  | 0, s => ([], s)
  | n + 1, s =>
    let c := initial.copy s
    let im1 := if calculator then { c.1 with hasCalc := true } else c.1
    let s1 := if calculator then { c.2 with calcCalls := c.2.calcCalls + 1 } else c.2
    let im2 := if constraint then { im1 with constr := true } else im1
    let rest := mkMiddles initial calculator constraint n s1
    (im2 :: rest.1, rest.2)

/-- Translation of interp_by_neb(initial, final, n_images, interp='idpp',
calculator=None, constraint=None, fmax=0.5, steps=10): NEB interpolation
between two images.  With no intermediate image it returns the two
endpoints unchanged before any machinery runs; otherwise it builds the
band from fresh copies of the initial image, interpolates the middles,
and relaxes the band exactly when a calculator factory was supplied.
Returns the band together with the updated ambient state. -/
def interp_by_neb (initial final : Atoms) (n_images : Nat) (interp : String)
    (calculator constraint : Bool) (fmax : Rat) (steps : Nat) (s : St) :
    List Atoms × St :=
  if n_images = 0 then ([initial, final], s)
  else
    let m := mkMiddles initial calculator constraint n_images s
    let mids1 := bandInterpolateMid interp initial.pos final.pos m.1
    let mids2 := if calculator then mdminMid fmax steps initial.pos final.pos mids1 else mids1
    let s2 := if calculator then { m.2 with relaxRuns := m.2.relaxRuns + 1 } else m.2
    (initial :: mids2 ++ [final], s2)

/-- Per-segment fine passes of interp_by_multiscale_neb: for every
adjacent pair of the coarse band, interp_by_neb(i, j, n_interp_images)
with every keyword left at its Python default (idpp, no calculator, no
constraint, fmax 0.5, 10 steps). -/
def finePasses (n_interp_images : Nat) :
    List (Atoms × Atoms) → St → List (List Atoms) × St
  | [], s => ([], s)
  | p :: ps, s =>
    let r := interp_by_neb p.1 p.2 n_interp_images "idpp" false false ((1 : Rat) / 2) 10 s
    let rest := finePasses n_interp_images ps r.2
    (r.1 :: rest.1, rest.2)

/-- Translation of interp_by_multiscale_neb(initial, final, n_neb_images,
n_interp_images, **kwargs): one coarse NEB pass, which is the only call
receiving the keyword parameters of the caller, then a pure-default fine
pass between every two adjacent coarse images, all chained into one
sequence. -/
def interp_by_multiscale_neb (initial final : Atoms)
    (n_neb_images n_interp_images : Nat) (interp : String)
    (calculator constraint : Bool) (fmax : Rat) (steps : Nat) (s : St) :
    List Atoms × St :=
  let r := interp_by_neb initial final n_neb_images interp calculator constraint fmax steps s
  let fp := finePasses n_interp_images (r.1.zip r.1.tail) r.2
  (fp.1.flatten, fp.2)

/-- Translation of aug_point(point, n_dupl): the point repeated n_dupl
times (the Python generator is consumed exactly once, so an eager list is
an equivalent model). -/
def aug_point (point : Atoms) (n_dupl : Nat) : List Atoms :=
  List.replicate n_dupl point

/-- Keyword dictionary a point may carry under the interp key: the
arguments of interp_by_multiscale_neb, namely the counts for the two
scales and the keyword parameters forwarded to the coarse NEB pass. -/
structure InterpCfg where
  n_neb_images : Nat
  n_interp_images : Nat
  interp : String
  calculator : Bool
  constraint : Bool
  fmax : Rat
  steps : Nat
  deriving DecidableEq, Repr, Inhabited

/-- One entry of the input list of interp_PES, with one optional field
per recognised dictionary key.  The reorient field records whether the
key is present: the driver only tests membership and never reads the
value stored under it. -/
structure Point where
  file : Option String
  format : Option String
  atoms : Option Atoms
  dupl : Option Nat
  interp : Option InterpCfg
  reorient : Bool
  deriving DecidableEq, Repr, Inhabited

/-- Working record the driver keeps per point: the shallow-copied input
entry plus the resolved atoms and the growing frame list (the atoms and
the underscore-frames keys added to the copy). -/
structure Img where
  point : Point
  atoms : Atoms
  frames : List Atoms
  deriving DecidableEq, Repr, Inhabited

/-- Unhandled Python exceptions the driver can die with: a missing
dictionary key, an index into an empty list, and a value of the wrong
type reaching a collaborator. -/
inductive PESError where
  | keyError
  | indexError
  | typeError
  deriving DecidableEq, Repr

/-- Modelled from the spec: minimize_rotation_and_translation(ref,
target), the pairwise geometric alignment primitive.  It mutates the
geometry of the target configuration to reduce rigid displacement from
the reference; the identity of the object is untouched. -/
def minimize_rotation_and_translation (ref target : Atoms) : Atoms :=
  { target with pos := target.pos - (target.pos - ref.pos) / 2 }

/-- Image-resolution step of the first driver loop: use the supplied
atoms when the key is present, otherwise read the file.  The function fs
models the ASE read collaborator as a map from path and optional format
to a geometry; a read allocates a fresh object.  A point with neither an
atoms key nor a file key dies with the Python KeyError. -/
def loadAtoms (fs : String → Option String → Int) (i : Point) (s : St) :
    Except PESError (Atoms × St) :=
  match i.atoms with
  | some a => Except.ok (a, s)
  | none =>
    match i.file with
    | none => Except.error PESError.keyError
    | some f =>
      Except.ok
        ({ oid := s.fresh, pos := fs f i.format, hasCalc := false, constr := false },
         { s with fresh := s.fresh + 1 })

/-- First driver loop: shallow-copy each entry, resolve its atoms, align
against the last already-resolved image when the reorient key is present
(on the first point that indexes an empty list, which is the Python
IndexError), then record the resolved atoms and the initial one-element
frame list. -/
def resolvePoints (fs : String → Option String → Int) :
    List Point → List Img → St → Except PESError (List Img × St)
  | [], imgs, s => Except.ok (imgs, s)
  | i :: rest, imgs, s =>
    match loadAtoms fs i s with
    | Except.error e => Except.error e
    | Except.ok (a0, s1) =>
      match (if i.reorient then
          match imgs.getLast? with
          | none => Except.error PESError.indexError
          | some prev =>
            Except.ok (minimize_rotation_and_translation prev.atoms a0,
              { s1 with alignCalls := s1.alignCalls + 1 })
        else Except.ok (a0, s1)) with
      | Except.error e => Except.error e
      | Except.ok (a, s2) =>
        resolvePoints fs rest (imgs ++ [{ point := i, atoms := a, frames := [a] }]) s2

/-- Duplication loop body of the driver: when the dupl key is present,
extend the frame list with that many repetitions of the atoms of the
point. -/
def duplicate (img : Img) : Img :=
  match img.point.dupl with
  | none => img
  | some n => { img with frames := img.frames ++ aug_point img.atoms n }

/-- Interpolation loop of the driver: for every consecutive pair whose
first member carries an interp key, extend the frame list of the first
member with the multiscale interpolation toward its successor. -/
def interpolateSegs : List Img → St → List Img × St
  | [], s => ([], s)
  | [last], s => ([last], s)
  | curr :: succ :: rest, s =>
    match curr.point.interp with
    | none =>
      let r := interpolateSegs (succ :: rest) s
      (curr :: r.1, r.2)
    | some cfg =>
      let m := interp_by_multiscale_neb curr.atoms succ.atoms cfg.n_neb_images
        cfg.n_interp_images cfg.interp cfg.calculator cfg.constraint cfg.fmax cfg.steps s
      let r := interpolateSegs (succ :: rest) m.2
      ({ curr with frames := curr.frames ++ m.1 } :: r.1, r.2)

/-- Two shapes interp_PES can return, selected by the flatten flag. -/
inductive PESResult where
  | flat : List Atoms → PESResult
  | grouped : List (List Atoms) → PESResult
  deriving DecidableEq, Repr

/-- Translation of interp_PES(images, flatten=True), the main driver. -/
def interp_PES (fs : String → Option String → Int) (images : List Point)
    (flatten : Bool) (s : St) : Except PESError (PESResult × St) :=
  match resolvePoints fs images [] s with
  | Except.error e => Except.error e
  | Except.ok (imgs, s1) =>
    let r := interpolateSegs (imgs.map duplicate) s1
    let frame_sets := r.1.map Img.frames
    if flatten then Except.ok (PESResult.flat frame_sets.flatten, r.2)
    else Except.ok (PESResult.grouped frame_sets, r.2)

/-!  Basic facts about the band interpolator. -/

/-- Contiguous object identities handed out by the allocator, starting at
a and n long. -/
def oidRange : Nat → Nat → List Nat
  | _, 0 => []
  | a, n + 1 => a :: oidRange (a + 1) n

theorem oidRange_length (a n : Nat) : (oidRange a n).length = n := by
  induction n generalizing a with
  | zero => rfl
  | succ n ih => simp [oidRange, ih]

theorem mem_oidRange {x a n : Nat} : x ∈ oidRange a n ↔ a ≤ x ∧ x < a + n := by
  induction n generalizing a with
  | zero => simp [oidRange]
  | succ n ih => simp [oidRange, ih]; omega

theorem oidRange_nodup (a n : Nat) : (oidRange a n).Nodup := by
  induction n generalizing a with
  | zero => simp [oidRange]
  | succ n ih =>
    rw [oidRange]
    refine List.nodup_cons.mpr ⟨?_, ih (a + 1)⟩
    rw [mem_oidRange]
    omega

theorem mkMiddles_length (a : Atoms) (cal con : Bool) (n : Nat) (s : St) :
    (mkMiddles a cal con n s).1.length = n := by
  induction n generalizing s with
  | zero => rfl
  | succ n ih => simp [mkMiddles, ih]

theorem mkMiddles_st (a : Atoms) (cal con : Bool) (n : Nat) (s : St) :
    (mkMiddles a cal con n s).2 =
      { fresh := s.fresh + n,
        calcCalls := s.calcCalls + (if cal then n else 0),
        relaxRuns := s.relaxRuns, alignCalls := s.alignCalls } := by
  induction n generalizing s with
  | zero => cases cal <;> simp [mkMiddles]
  | succ n ih =>
    cases cal <;> simp [mkMiddles, ih, Atoms.copy, St.mk.injEq] <;> omega

theorem mkMiddles_oids (a : Atoms) (cal con : Bool) (n : Nat) (s : St) :
    (mkMiddles a cal con n s).1.map Atoms.oid = oidRange s.fresh n := by
  induction n generalizing s with
  | zero => rfl
  | succ n ih =>
    cases cal <;> cases con <;> simp [mkMiddles, oidRange, Atoms.copy, ih]

theorem bandInterpolateMid_oids (m : String) (p q : Int) (l : List Atoms) :
    (bandInterpolateMid m p q l).map Atoms.oid = l.map Atoms.oid := by
  unfold bandInterpolateMid
  rw [List.map_map]
  have h : (Atoms.oid ∘ fun ka : Nat × Atoms =>
      ({ ka.2 with pos := interpPos m p q (ka.1 + 1) (l.length + 1) } : Atoms))
      = Atoms.oid ∘ Prod.snd := rfl
  rw [h, ← List.map_map, List.enum_map_snd]

theorem bandInterpolateMid_length (m : String) (p q : Int) (l : List Atoms) :
    (bandInterpolateMid m p q l).length = l.length := by
  have h := congrArg List.length (bandInterpolateMid_oids m p q l)
  simpa using h

theorem smoothOnce_length (p q : Int) (ps : List Int) :
    (smoothOnce p q ps).length = ps.length := by
  simp [smoothOnce]

theorem iterate_smoothOnce_length (p q : Int) (n : Nat) (ps : List Int) :
    (Nat.iterate (smoothOnce p q) n ps).length = ps.length := by
  induction n generalizing ps with
  | zero => rfl
  | succ n ih => rw [Function.iterate_succ_apply, ih, smoothOnce_length]

theorem mdminMid_oids (fm : Rat) (st : Nat) (p q : Int) (l : List Atoms) :
    (mdminMid fm st p q l).map Atoms.oid = l.map Atoms.oid := by
  unfold mdminMid
  rw [List.map_map]
  have h : (Atoms.oid ∘ fun ap : Atoms × Int => ({ ap.1 with pos := ap.2 } : Atoms))
      = Atoms.oid ∘ Prod.fst := rfl
  rw [h, ← List.map_map,
    List.map_fst_zip _ _ (by rw [iterate_smoothOnce_length, List.length_map])]

theorem mdminMid_length (fm : Rat) (st : Nat) (p q : Int) (l : List Atoms) :
    (mdminMid fm st p q l).length = l.length := by
  have h := congrArg List.length (mdminMid_oids fm st p q l)
  simpa using h

/-- Intermediate images produced inside interp_by_neb when the image
count is nonzero. -/
def nebMids (initial final : Atoms) (n_images : Nat) (interp : String)
    (calculator constraint : Bool) (fmax : Rat) (steps : Nat) (s : St) : List Atoms :=
  let m := mkMiddles initial calculator constraint n_images s
  let mids1 := bandInterpolateMid interp initial.pos final.pos m.1
  if calculator then mdminMid fmax steps initial.pos final.pos mids1 else mids1

/-- Ambient state after interp_by_neb when the image count is nonzero. -/
def nebStAfter (initial : Atoms) (n_images : Nat)
    (calculator constraint : Bool) (s : St) : St :=
  let m := mkMiddles initial calculator constraint n_images s
  if calculator then { m.2 with relaxRuns := m.2.relaxRuns + 1 } else m.2

theorem interp_by_neb_decomp (initial final : Atoms) (n : Nat) (itp : String)
    (cal con : Bool) (fm : Rat) (st : Nat) (s : St) (h : n ≠ 0) :
    interp_by_neb initial final n itp cal con fm st s
      = (initial :: nebMids initial final n itp cal con fm st s ++ [final],
         nebStAfter initial n cal con s) := by
  simp [interp_by_neb, nebMids, nebStAfter, h]

theorem nebMids_oids (i f : Atoms) (n : Nat) (itp : String) (cal con : Bool)
    (fm : Rat) (st : Nat) (s : St) :
    (nebMids i f n itp cal con fm st s).map Atoms.oid = oidRange s.fresh n := by
  unfold nebMids
  cases cal <;>
    simp [mdminMid_oids, bandInterpolateMid_oids, mkMiddles_oids]

theorem nebMids_length (i f : Atoms) (n : Nat) (itp : String) (cal con : Bool)
    (fm : Rat) (st : Nat) (s : St) :
    (nebMids i f n itp cal con fm st s).length = n := by
  have h := congrArg List.length (nebMids_oids i f n itp cal con fm st s)
  simpa [oidRange_length] using h

theorem interp_by_neb_length (i f : Atoms) (n : Nat) (itp : String) (cal con : Bool)
    (fm : Rat) (st : Nat) (s : St) :
    (interp_by_neb i f n itp cal con fm st s).1.length = n + 2 := by
  by_cases h : n = 0
  · subst h; rfl
  · rw [interp_by_neb_decomp _ _ _ _ _ _ _ _ _ h]
    simp [nebMids_length]

theorem interp_by_neb_head (i f : Atoms) (n : Nat) (itp : String) (cal con : Bool)
    (fm : Rat) (st : Nat) (s : St) :
    (interp_by_neb i f n itp cal con fm st s).1.head? = some i := by
  by_cases h : n = 0
  · subst h; rfl
  · rw [interp_by_neb_decomp _ _ _ _ _ _ _ _ _ h]
    rfl

theorem interp_by_neb_last (i f : Atoms) (n : Nat) (itp : String) (cal con : Bool)
    (fm : Rat) (st : Nat) (s : St) :
    (interp_by_neb i f n itp cal con fm st s).1.getLast? = some f := by
  by_cases h : n = 0
  · subst h; rfl
  · rw [interp_by_neb_decomp _ _ _ _ _ _ _ _ _ h]
    rw [show (i :: nebMids i f n itp cal con fm st s ++ [f])
        = (i :: nebMids i f n itp cal con fm st s) ++ [f] from rfl]
    rw [List.getLast?_concat]

theorem interp_by_neb_st (i f : Atoms) (n : Nat) (itp : String) (cal con : Bool)
    (fm : Rat) (st : Nat) (s : St) :
    (interp_by_neb i f n itp cal con fm st s).2 =
      if n = 0 then s else
        { fresh := s.fresh + n,
          calcCalls := s.calcCalls + (if cal then n else 0),
          relaxRuns := s.relaxRuns + (if cal then 1 else 0),
          alignCalls := s.alignCalls } := by
  by_cases h : n = 0
  · simp [interp_by_neb, h]
  · rw [interp_by_neb_decomp _ _ _ _ _ _ _ _ _ h, if_neg h]
    unfold nebStAfter
    cases cal <;> simp [mkMiddles_st]

theorem interp_by_neb_st_default (i f : Atoms) (F : Nat) (s : St) :
    (interp_by_neb i f F "idpp" false false ((1 : Rat) / 2) 10 s).2.calcCalls
        = s.calcCalls ∧
    (interp_by_neb i f F "idpp" false false ((1 : Rat) / 2) 10 s).2.relaxRuns
        = s.relaxRuns ∧
    (interp_by_neb i f F "idpp" false false ((1 : Rat) / 2) 10 s).2.alignCalls
        = s.alignCalls ∧
    s.fresh ≤ (interp_by_neb i f F "idpp" false false ((1 : Rat) / 2) 10 s).2.fresh := by
  rw [interp_by_neb_st]
  by_cases h : F = 0 <;> simp [h]

theorem finePasses_st (F : Nat) (ps : List (Atoms × Atoms)) (s : St) :
    (finePasses F ps s).2.calcCalls = s.calcCalls ∧
    (finePasses F ps s).2.relaxRuns = s.relaxRuns ∧
    (finePasses F ps s).2.alignCalls = s.alignCalls ∧
    s.fresh ≤ (finePasses F ps s).2.fresh := by
  induction ps generalizing s with
  | nil => simp [finePasses]
  | cons p ps ih =>
    have h1 := interp_by_neb_st_default p.1 p.2 F s
    have h2 := ih (interp_by_neb p.1 p.2 F "idpp" false false ((1 : Rat) / 2) 10 s).2
    rw [finePasses]
    refine ⟨?_, ?_, ?_, ?_⟩
    · rw [h2.1, h1.1]
    · rw [h2.2.1, h1.2.1]
    · rw [h2.2.2.1, h1.2.2.1]
    · exact le_trans h1.2.2.2 h2.2.2.2

/-- C5: interp_by_neb with image count zero returns exactly the
two-element sequence of the unchanged input endpoints, with the ambient
state untouched: no intermediate copy is allocated, the calculator
factory is never invoked and no relaxation runs even when a factory is
supplied. -/
theorem C5_neb_zero_images (initial final : Atoms) (itp : String)
    (cal con : Bool) (fm : Rat) (st : Nat) (s : St) :
    interp_by_neb initial final 0 itp cal con fm st s = ([initial, final], s) := rfl

/-- C1: for every pair of endpoint configurations and every image count N
of at least one, interp_by_neb returns a band of exactly N + 2 images
whose first element is the supplied initial configuration and whose last
element is the supplied final configuration. -/
theorem C1_neb_band_shape (initial final : Atoms) (N : Nat) (itp : String)
    (cal con : Bool) (fm : Rat) (st : Nat) (s : St) (_hN : 1 ≤ N) :
    (interp_by_neb initial final N itp cal con fm st s).1.length = N + 2 ∧
    (interp_by_neb initial final N itp cal con fm st s).1.head? = some initial ∧
    (interp_by_neb initial final N itp cal con fm st s).1.getLast? = some final :=
  ⟨interp_by_neb_length initial final N itp cal con fm st s,
   interp_by_neb_head initial final N itp cal con fm st s,
   interp_by_neb_last initial final N itp cal con fm st s⟩

/-- Witness for C1 at a concrete input. -/
theorem C1_neb_band_shape_witness :
    1 ≤ 1 ∧
    ((interp_by_neb ⟨0, 0, false, false⟩ ⟨1, 10, false, false⟩ 1 "idpp" false false
        ((1 : Rat) / 2) 10 ⟨2, 0, 0, 0⟩).1.length = 1 + 2 ∧
     (interp_by_neb ⟨0, 0, false, false⟩ ⟨1, 10, false, false⟩ 1 "idpp" false false
        ((1 : Rat) / 2) 10 ⟨2, 0, 0, 0⟩).1.head? = some ⟨0, 0, false, false⟩ ∧
     (interp_by_neb ⟨0, 0, false, false⟩ ⟨1, 10, false, false⟩ 1 "idpp" false false
        ((1 : Rat) / 2) 10 ⟨2, 0, 0, 0⟩).1.getLast? = some ⟨1, 10, false, false⟩) :=
  ⟨by decide,
   C1_neb_band_shape ⟨0, 0, false, false⟩ ⟨1, 10, false, false⟩ 1 "idpp" false false
     ((1 : Rat) / 2) 10 ⟨2, 0, 0, 0⟩ (by decide)⟩

theorem interp_by_neb_fresh_le (i f : Atoms) (n : Nat) (itp : String) (cal con : Bool)
    (fm : Rat) (st : Nat) (s : St) :
    s.fresh ≤ (interp_by_neb i f n itp cal con fm st s).2.fresh := by
  rw [interp_by_neb_st]
  by_cases h : n = 0 <;> simp [h]

theorem interp_by_neb_count_low (i f a : Atoms) (n : Nat) (itp : String) (cal con : Bool)
    (fm : Rat) (st : Nat) (s : St) (ha : a.oid < s.fresh) :
    (interp_by_neb i f n itp cal con fm st s).1.count a = ([i, f] : List Atoms).count a := by
  by_cases h : n = 0
  · subst h; rfl
  · rw [interp_by_neb_decomp _ _ _ _ _ _ _ _ _ h]
    have hnot : a ∉ nebMids i f n itp cal con fm st s := by
      intro hmem
      have h1 : a.oid ∈ (nebMids i f n itp cal con fm st s).map Atoms.oid :=
        List.mem_map_of_mem _ hmem
      rw [nebMids_oids, mem_oidRange] at h1
      omega
    have hz : (nebMids i f n itp cal con fm st s).count a = 0 :=
      List.count_eq_zero.mpr hnot
    show ([i] ++ nebMids i f n itp cal con fm st s ++ [f] : List Atoms).count a
        = ([i] ++ [f] : List Atoms).count a
    rw [List.count_append, List.count_append, List.count_append, hz]
    omega

theorem finePasses_length (F : Nat) (ps : List (Atoms × Atoms)) (s : St) :
    (finePasses F ps s).1.length = ps.length := by
  induction ps generalizing s with
  | nil => rfl
  | cons p ps ih => simp [finePasses, ih]

theorem finePasses_flatten_length (F : Nat) (ps : List (Atoms × Atoms)) (s : St) :
    (finePasses F ps s).1.flatten.length = ps.length * (F + 2) := by
  induction ps generalizing s with
  | nil => simp [finePasses]
  | cons p ps ih =>
    simp [finePasses, ih, interp_by_neb_length]
    ring

theorem finePasses_getD (F : Nat) (ps : List (Atoms × Atoms)) (s : St) (j : Nat)
    (hj : j < ps.length) :
    ((finePasses F ps s).1.getD j []).head? = some (ps.getD j default).1 ∧
    ((finePasses F ps s).1.getD j []).getLast? = some (ps.getD j default).2 := by
  induction ps generalizing s j with
  | nil => simp at hj
  | cons p ps ih =>
    cases j with
    | zero =>
      constructor
      · simp [finePasses, interp_by_neb_head]
      · simp [finePasses, interp_by_neb_last]
    | succ j =>
      have hj' : j < ps.length := by simpa using hj
      have h := ih (interp_by_neb p.1 p.2 F "idpp" false false ((1 : Rat) / 2) 10 s).2 j hj'
      simpa [finePasses] using h

theorem finePasses_count (F : Nat) (ps : List (Atoms × Atoms)) (s : St) (a : Atoms)
    (ha : a.oid < s.fresh) :
    (finePasses F ps s).1.flatten.count a
      = (ps.map Prod.fst).count a + (ps.map Prod.snd).count a := by
  induction ps generalizing s with
  | nil => simp [finePasses]
  | cons p ps ih =>
    have hle := interp_by_neb_fresh_le p.1 p.2 F "idpp" false false ((1 : Rat) / 2) 10 s
    have ha' : a.oid
        < (interp_by_neb p.1 p.2 F "idpp" false false ((1 : Rat) / 2) 10 s).2.fresh :=
      lt_of_lt_of_le ha hle
    have hseg := interp_by_neb_count_low p.1 p.2 a F "idpp" false false ((1 : Rat) / 2) 10 s ha
    have hrest := ih _ ha'
    simp only [finePasses, List.flatten_cons, List.count_append, List.map_cons]
    rw [hseg, hrest]
    rw [show ([p.1, p.2] : List Atoms) = [p.1] ++ [p.2] from rfl,
        show (p.1 :: ps.map Prod.fst) = [p.1] ++ ps.map Prod.fst from rfl,
        show (p.2 :: ps.map Prod.snd) = [p.2] ++ ps.map Prod.snd from rfl]
    simp only [List.count_append]
    omega

theorem zip_tail_map_fst {α : Type _} : ∀ l : List α, (l.zip l.tail).map Prod.fst = l.dropLast
  | [] => rfl
  | [_] => rfl
  | x :: y :: t => by
    have ih := zip_tail_map_fst (y :: t)
    simp only [List.tail_cons] at ih
    simp only [List.tail_cons, List.zip_cons_cons, List.map_cons, List.dropLast_cons₂]
    exact congrArg (x :: ·) ih

theorem zip_tail_map_snd {α : Type _} (l : List α) :
    (l.zip l.tail).map Prod.snd = l.tail :=
  List.map_snd_zip l l.tail (by cases l <;> simp)

theorem zip_tail_getD {α : Type _} [Inhabited α] (l : List α) (j : Nat)
    (hj : j + 1 < l.length) :
    (l.zip l.tail).getD j default = (l.getD j default, l.getD (j + 1) default) := by
  have hj0 : j < (l.zip l.tail).length := by
    rw [List.length_zip, List.length_tail]
    omega
  have hj1 : j < l.length := by omega
  have hj2 : j < l.tail.length := by rw [List.length_tail]; omega
  rw [List.getD_eq_getElem _ _ hj0, List.getD_eq_getElem _ _ hj1,
      List.getD_eq_getElem _ _ hj]
  rw [List.getElem_zip]
  rw [Prod.mk.injEq]
  exact ⟨rfl, List.getElem_tail l j hj2⟩

/-- Coarse band computed inside interp_by_multiscale_neb. -/
def coarseBand (i f : Atoms) (C : Nat) (itp : String) (cal con : Bool)
    (fm : Rat) (st : Nat) (s : St) : List Atoms :=
  (interp_by_neb i f C itp cal con fm st s).1

/-- Fine passes computed inside interp_by_multiscale_neb, one band per
adjacent pair of coarse images. -/
def fineBands (i f : Atoms) (C F : Nat) (itp : String) (cal con : Bool)
    (fm : Rat) (st : Nat) (s : St) : List (List Atoms) :=
  (finePasses F ((coarseBand i f C itp cal con fm st s).zip
      (coarseBand i f C itp cal con fm st s).tail)
    (interp_by_neb i f C itp cal con fm st s).2).1

theorem interp_by_multiscale_neb_fst (i f : Atoms) (C F : Nat) (itp : String)
    (cal con : Bool) (fm : Rat) (st : Nat) (s : St) :
    (interp_by_multiscale_neb i f C F itp cal con fm st s).1
      = (fineBands i f C F itp cal con fm st s).flatten := rfl

theorem interp_by_multiscale_neb_length (i f : Atoms) (C F : Nat) (itp : String)
    (cal con : Bool) (fm : Rat) (st : Nat) (s : St) :
    (interp_by_multiscale_neb i f C F itp cal con fm st s).1.length
      = (C + 1) * (F + 2) := by
  rw [interp_by_multiscale_neb_fst]
  unfold fineBands coarseBand
  rw [finePasses_flatten_length]
  rw [List.length_zip, List.length_tail, interp_by_neb_length]
  have hmin : min (C + 2) (C + 2 - 1) = C + 1 := by omega
  rw [hmin]

theorem count_two_aux (x y a : Atoms) (mids : List Atoms) (F : Nat) (s2 : St)
    (hnd : mids.Nodup) (hmem : a ∈ mids) (hax : a ≠ x) (hay : a ≠ y)
    (ha : a.oid < s2.fresh) :
    (finePasses F ((x :: mids ++ [y]).zip (x :: mids ++ [y]).tail) s2).1.flatten.count a
      = 2 := by
  rw [finePasses_count F _ s2 a ha]
  rw [zip_tail_map_fst, zip_tail_map_snd]
  have h1 : (x :: mids ++ [y]).dropLast = x :: mids := by
    rw [show (x :: mids ++ [y]) = (x :: mids) ++ [y] from rfl, List.dropLast_concat]
  have h2 : (x :: mids ++ [y]).tail = mids ++ [y] := rfl
  rw [h1, h2]
  have hm1 : mids.count a = 1 := List.count_eq_one_of_mem hnd hmem
  have hy0 : ([y] : List Atoms).count a = 0 := by
    rw [List.count_eq_zero]
    simp [hay]
  have e1 : (x :: mids).count a = 1 := by rw [List.count_cons_of_ne hax, hm1]
  have e2 : (mids ++ [y]).count a = 1 := by rw [List.count_append, hm1, hy0]
  omega

/-- C2: for every coarse count C and fine count F, the multiscale
interpolator returns (C + 1) * (F + 2) images, and every interior coarse
image appears in the output exactly twice: as the last frame of one fine
pass and as the first frame of the next.  The freshness hypotheses say
the two endpoints were allocated before the current allocator mark, which
is an invariant of the embedding. -/
theorem C2_multiscale_shape (initial final : Atoms) (C F : Nat) (itp : String)
    (cal con : Bool) (fm : Rat) (st : Nat) (s : St)
    (hI : initial.oid < s.fresh) (hF : final.oid < s.fresh) :
    (interp_by_multiscale_neb initial final C F itp cal con fm st s).1.length
        = (C + 1) * (F + 2) ∧
    (∀ k, 1 ≤ k → k ≤ C →
      (interp_by_multiscale_neb initial final C F itp cal con fm st s).1.count
          ((coarseBand initial final C itp cal con fm st s).getD k default) = 2 ∧
      ((fineBands initial final C F itp cal con fm st s).getD (k - 1) []).getLast?
          = some ((coarseBand initial final C itp cal con fm st s).getD k default) ∧
      ((fineBands initial final C F itp cal con fm st s).getD k []).head?
          = some ((coarseBand initial final C itp cal con fm st s).getD k default)) := by
  refine ⟨interp_by_multiscale_neb_length initial final C F itp cal con fm st s, ?_⟩
  intro k hk1 hk2
  have hC : C ≠ 0 := by omega
  have hdec : coarseBand initial final C itp cal con fm st s
      = initial :: nebMids initial final C itp cal con fm st s ++ [final] := by
    unfold coarseBand
    rw [interp_by_neb_decomp _ _ _ _ _ _ _ _ _ hC]
  have hmlen : (nebMids initial final C itp cal con fm st s).length = C :=
    nebMids_length initial final C itp cal con fm st s
  have hk1' : k - 1 < (nebMids initial final C itp cal con fm st s).length := by
    rw [hmlen]; omega
  have haeq : (coarseBand initial final C itp cal con fm st s).getD k default
      = (nebMids initial final C itp cal con fm st s).getD (k - 1) default := by
    obtain ⟨j, rfl⟩ : ∃ j, k = j + 1 := ⟨k - 1, by omega⟩
    rw [hdec, Nat.add_sub_cancel]
    rw [List.getD_append _ _ _ _ (by simp only [List.length_cons, hmlen]; omega)]
    exact List.getD_cons_succ
  have hmem : (nebMids initial final C itp cal con fm st s).getD (k - 1) default
      ∈ nebMids initial final C itp cal con fm st s := by
    rw [List.getD_eq_getElem _ _ hk1']
    exact List.getElem_mem _
  have hbound : s.fresh ≤ ((nebMids initial final C itp cal con fm st s).getD
        (k - 1) default).oid ∧
      ((nebMids initial final C itp cal con fm st s).getD (k - 1) default).oid
        < s.fresh + C := by
    have hm := List.mem_map_of_mem Atoms.oid hmem
    rw [nebMids_oids, mem_oidRange] at hm
    exact hm
  have hax : (nebMids initial final C itp cal con fm st s).getD (k - 1) default
      ≠ initial := by
    intro h
    rw [h] at hbound
    omega
  have hay : (nebMids initial final C itp cal con fm st s).getD (k - 1) default
      ≠ final := by
    intro h
    rw [h] at hbound
    omega
  have hnd : (nebMids initial final C itp cal con fm st s).Nodup := by
    refine List.Nodup.of_map Atoms.oid ?_
    rw [nebMids_oids]
    exact oidRange_nodup _ _
  have hs2f : (interp_by_neb initial final C itp cal con fm st s).2.fresh
      = s.fresh + C := by
    rw [interp_by_neb_st, if_neg hC]
  have hlow : ((nebMids initial final C itp cal con fm st s).getD (k - 1) default).oid
      < (interp_by_neb initial final C itp cal con fm st s).2.fresh := by
    rw [hs2f]; omega
  have hcl : (coarseBand initial final C itp cal con fm st s).length = C + 2 :=
    interp_by_neb_length initial final C itp cal con fm st s
  have hpl : ((coarseBand initial final C itp cal con fm st s).zip
      (coarseBand initial final C itp cal con fm st s).tail).length = C + 1 := by
    rw [List.length_zip, List.length_tail, hcl]
    omega
  refine ⟨?_, ?_, ?_⟩
  · rw [interp_by_multiscale_neb_fst, haeq]
    unfold fineBands
    rw [hdec]
    exact count_two_aux initial final _ _ F _ hnd hmem hax hay hlow
  · have hj : k - 1 < ((coarseBand initial final C itp cal con fm st s).zip
        (coarseBand initial final C itp cal con fm st s).tail).length := by
      rw [hpl]; omega
    have hg := finePasses_getD F
      ((coarseBand initial final C itp cal con fm st s).zip
        (coarseBand initial final C itp cal con fm st s).tail)
      (interp_by_neb initial final C itp cal con fm st s).2 (k - 1) hj
    unfold fineBands
    rw [hg.2, zip_tail_getD _ _ (by rw [hcl]; omega), show k - 1 + 1 = k by omega]
  · have hj : k < ((coarseBand initial final C itp cal con fm st s).zip
        (coarseBand initial final C itp cal con fm st s).tail).length := by
      rw [hpl]; omega
    have hg := finePasses_getD F
      ((coarseBand initial final C itp cal con fm st s).zip
        (coarseBand initial final C itp cal con fm st s).tail)
      (interp_by_neb initial final C itp cal con fm st s).2 k hj
    unfold fineBands
    rw [hg.1, zip_tail_getD _ _ (by rw [hcl]; omega)]

/-- Witness for C2 at a concrete input. -/
theorem C2_multiscale_shape_witness :
    ((⟨0, 0, false, false⟩ : Atoms).oid < (⟨2, 0, 0, 0⟩ : St).fresh ∧
     (⟨1, 12, false, false⟩ : Atoms).oid < (⟨2, 0, 0, 0⟩ : St).fresh) ∧
    ((interp_by_multiscale_neb ⟨0, 0, false, false⟩ ⟨1, 12, false, false⟩ 2 1 "idpp"
        false false ((1 : Rat) / 2) 10 ⟨2, 0, 0, 0⟩).1.length = (2 + 1) * (1 + 2) ∧
     (∀ k, 1 ≤ k → k ≤ 2 →
      (interp_by_multiscale_neb ⟨0, 0, false, false⟩ ⟨1, 12, false, false⟩ 2 1 "idpp"
          false false ((1 : Rat) / 2) 10 ⟨2, 0, 0, 0⟩).1.count
          ((coarseBand ⟨0, 0, false, false⟩ ⟨1, 12, false, false⟩ 2 "idpp" false false
            ((1 : Rat) / 2) 10 ⟨2, 0, 0, 0⟩).getD k default) = 2 ∧
      ((fineBands ⟨0, 0, false, false⟩ ⟨1, 12, false, false⟩ 2 1 "idpp" false false
            ((1 : Rat) / 2) 10 ⟨2, 0, 0, 0⟩).getD (k - 1) []).getLast?
          = some ((coarseBand ⟨0, 0, false, false⟩ ⟨1, 12, false, false⟩ 2 "idpp" false
            false ((1 : Rat) / 2) 10 ⟨2, 0, 0, 0⟩).getD k default) ∧
      ((fineBands ⟨0, 0, false, false⟩ ⟨1, 12, false, false⟩ 2 1 "idpp" false false
            ((1 : Rat) / 2) 10 ⟨2, 0, 0, 0⟩).getD k []).head?
          = some ((coarseBand ⟨0, 0, false, false⟩ ⟨1, 12, false, false⟩ 2 "idpp" false
            false ((1 : Rat) / 2) 10 ⟨2, 0, 0, 0⟩).getD k default))) :=
  ⟨⟨by decide, by decide⟩,
   C2_multiscale_shape ⟨0, 0, false, false⟩ ⟨1, 12, false, false⟩ 2 1 "idpp" false false
     ((1 : Rat) / 2) 10 ⟨2, 0, 0, 0⟩ (by decide) (by decide)⟩

/-- C6: in interp_by_multiscale_neb only the coarse pass receives the
keyword parameters of the caller.  Across the whole multiscale run the
calculator factory is invoked once per coarse intermediate image and
relaxation runs exactly once when a factory is supplied and the coarse
band has intermediate images; the fine passes contribute to neither
counter, whatever keywords were supplied and whatever the fine image
count is. -/
theorem C6_kwargs_only_coarse (initial final : Atoms) (C F : Nat) (itp : String)
    (cal con : Bool) (fm : Rat) (st : Nat) (s : St) :
    (interp_by_multiscale_neb initial final C F itp cal con fm st s).2.relaxRuns
        = s.relaxRuns + (if cal = true ∧ C ≠ 0 then 1 else 0) ∧
    (interp_by_multiscale_neb initial final C F itp cal con fm st s).2.calcCalls
        = s.calcCalls + (if cal = true ∧ C ≠ 0 then C else 0) := by
  unfold interp_by_multiscale_neb
  have hfp := finePasses_st F
    (((interp_by_neb initial final C itp cal con fm st s).1).zip
      ((interp_by_neb initial final C itp cal con fm st s).1).tail)
    (interp_by_neb initial final C itp cal con fm st s).2
  have hst := interp_by_neb_st initial final C itp cal con fm st s
  refine ⟨?_, ?_⟩
  · rw [hfp.2.1, hst]
    by_cases h : C = 0 <;> cases cal <;> simp [h]
  · rw [hfp.1, hst]
    by_cases h : C = 0 <;> cases cal <;> simp [h]

/-!  Facts about the driver loops. -/

theorem getD_take_aux {α : Type _} (l : List α) (n j : Nat) (d : α) (hj : j < n)
    (hn : n ≤ l.length) : (l.take n).getD j d = l.getD j d := by
  have h1 : j < (l.take n).length := by
    rw [List.length_take]; omega
  have h2 : j < l.length := by omega
  rw [List.getD_eq_getElem _ _ h1, List.getD_eq_getElem _ _ h2]
  exact List.getElem_take l

theorem take_snoc_aux {α : Type _} (l acc : List α) (x : α)
    (h : l.take (acc.length + 1) = acc ++ [x]) : l.take acc.length = acc := by
  have hmin : min acc.length (acc.length + 1) = acc.length := by omega
  have h1 : l.take acc.length = (l.take (acc.length + 1)).take acc.length := by
    rw [List.take_take, hmin]
  rw [h1, h]
  exact List.take_left acc [x]

theorem getD_prefix_aux {α : Type _} [Inhabited α] (l acc : List α) (x : α) (j : Nat)
    (h : l.take (acc.length + 1) = acc ++ [x]) (hj : j < acc.length + 1)
    (hlen : acc.length + 1 ≤ l.length) :
    l.getD j default = (acc ++ [x]).getD j default := by
  rw [← h]
  exact (getD_take_aux l (acc.length + 1) j default hj hlen).symm

theorem resolvePoints_cons_inv (fs : String → Option String → Int)
    (p : Point) (pts : List Point) (acc : List Img) (s : St) (imgs : List Img) (s' : St)
    (h : resolvePoints fs (p :: pts) acc s = Except.ok (imgs, s')) :
    ∃ img s2, resolvePoints fs pts (acc ++ [img]) s2 = Except.ok (imgs, s') ∧
      img.point = p ∧ img.frames = [img.atoms] ∧
      (∃ s₁ s₂ a₀, loadAtoms fs p s₁ = Except.ok (a₀, s₂) ∧
        img.atoms = (if p.reorient = true then
          minimize_rotation_and_translation (acc.getD (acc.length - 1) default).atoms a₀
        else a₀)) ∧
      (p.reorient = true → 1 ≤ acc.length) := by
  simp only [resolvePoints] at h
  split at h
  · exact Except.noConfusion h
  · rename_i a0 s1 heq
    split at h
    · exact Except.noConfusion h
    · rename_i a s2 heq2
      refine ⟨{ point := p, atoms := a, frames := [a] }, s2, h, rfl, rfl, ?_, ?_⟩
      · split at heq2
        · rename_i hre
          split at heq2
          · exact Except.noConfusion heq2
          · rename_i prev hlast
            simp only [Except.ok.injEq, Prod.mk.injEq] at heq2
            obtain ⟨ha, _⟩ := heq2
            refine ⟨s, s1, a0, heq, ?_⟩
            rw [if_pos hre, ← ha]
            have hprev : acc.getD (acc.length - 1) default = prev := by
              rw [List.getD_eq_getElem?_getD, ← List.getLast?_eq_getElem?, hlast]
              rfl
            rw [hprev]
        · rename_i hre
          simp only [Except.ok.injEq, Prod.mk.injEq] at heq2
          obtain ⟨ha, _⟩ := heq2
          refine ⟨s, s1, a0, heq, ?_⟩
          rw [if_neg hre, ← ha]
      · intro hre
        rw [if_pos hre] at heq2
        cases hlast : acc.getLast? with
        | none => rw [hlast] at heq2; exact Except.noConfusion heq2
        | some prev =>
          have hne : acc ≠ [] := by
            intro hnil
            rw [hnil] at hlast
            exact Option.noConfusion hlast
          cases acc with
          | nil => exact absurd rfl hne
          | cons z zs => exact Nat.succ_le_succ (Nat.zero_le _)

theorem resolvePoints_spec (fs : String → Option String → Int) :
    ∀ (pts : List Point) (acc : List Img) (s : St) (imgs : List Img) (s' : St),
      resolvePoints fs pts acc s = Except.ok (imgs, s') →
      imgs.length = acc.length + pts.length ∧
      imgs.take acc.length = acc ∧
      ∀ j, j < pts.length →
        (imgs.getD (acc.length + j) default).point = pts.getD j default ∧
        (imgs.getD (acc.length + j) default).frames
          = [(imgs.getD (acc.length + j) default).atoms] ∧
        ∃ s₁ s₂ a₀, loadAtoms fs (pts.getD j default) s₁ = Except.ok (a₀, s₂) ∧
          (imgs.getD (acc.length + j) default).atoms =
            (if (pts.getD j default).reorient = true then
              minimize_rotation_and_translation
                (imgs.getD (acc.length + j - 1) default).atoms a₀
            else a₀) := by
  intro pts
  induction pts with
  | nil =>
    intro acc s imgs s' h
    simp only [resolvePoints] at h
    simp only [Except.ok.injEq, Prod.mk.injEq] at h
    obtain ⟨h1, _⟩ := h
    subst h1
    refine ⟨by simp, by simp, ?_⟩
    intro j hj
    simp at hj
  | cons p pts ih =>
    intro acc s imgs s' h
    obtain ⟨img, s2, h', hpt, hfr, ⟨s₁, s₂, a₀, hload, hatoms⟩, hne⟩ :=
      resolvePoints_cons_inv fs p pts acc s imgs s' h
    obtain ⟨hlen, htake, hspec⟩ := ih (acc ++ [img]) s2 imgs s' h'
    have hacc1 : (acc ++ [img]).length = acc.length + 1 := by
      rw [List.length_append, List.length_cons, List.length_nil]
    rw [hacc1] at hlen htake
    simp only [hacc1] at hspec
    have hlen2 : acc.length + 1 ≤ imgs.length := by omega
    refine ⟨by rw [List.length_cons]; omega, take_snoc_aux imgs acc img htake, ?_⟩
    intro j hj
    cases j with
    | zero =>
      have hImg : imgs.getD (acc.length + 0) default = img := by
        rw [Nat.add_zero]
        rw [getD_prefix_aux imgs acc img acc.length htake (by omega) hlen2]
        rw [List.getD_append_right _ _ _ _ (le_refl _)]
        simp
      refine ⟨?_, ?_, ?_⟩
      · rw [hImg, List.getD_cons_zero]
        exact hpt
      · rw [hImg]
        exact hfr
      · refine ⟨s₁, s₂, a₀, ?_, ?_⟩
        · rw [List.getD_cons_zero]
          exact hload
        · rw [hImg, List.getD_cons_zero]
          by_cases hre : p.reorient = true
          · rw [if_pos hre] at hatoms ⊢
            have hpred : imgs.getD (acc.length + 0 - 1) default
                = acc.getD (acc.length - 1) default := by
              have h1le := hne hre
              rw [Nat.add_zero]
              rw [getD_prefix_aux imgs acc img (acc.length - 1) htake (by omega) hlen2]
              rw [List.getD_append _ _ _ _ (by omega)]
            rw [hpred]
            exact hatoms
          · rw [if_neg hre] at hatoms ⊢
            exact hatoms
    | succ j =>
      have hj' : j < pts.length := by
        rw [List.length_cons] at hj
        omega
      have hsp := hspec j hj'
      have hidx : acc.length + 1 + j = acc.length + (j + 1) := by omega
      rw [hidx] at hsp
      simpa only [List.getD_cons_succ] using hsp

theorem duplicate_point (img : Img) : (duplicate img).point = img.point := by
  cases h : img.point.dupl <;> simp [duplicate, h]

theorem duplicate_atoms (img : Img) : (duplicate img).atoms = img.atoms := by
  cases h : img.point.dupl <;> simp [duplicate, h]

theorem duplicate_frames (img : Img) :
    (duplicate img).frames
      = img.frames ++ List.replicate (img.point.dupl.getD 0) img.atoms := by
  cases h : img.point.dupl with
  | none => simp [duplicate, h]
  | some n => simp [duplicate, h, aug_point]

theorem interpolateSegs_facts :
    ∀ (l : List Img) (s : St),
      (interpolateSegs l s).1.length = l.length ∧
      ∀ j, j < l.length →
        ((interpolateSegs l s).1.getD j default).point = (l.getD j default).point ∧
        ((interpolateSegs l s).1.getD j default).atoms = (l.getD j default).atoms ∧
        ∃ bridge,
          ((interpolateSegs l s).1.getD j default).frames
            = (l.getD j default).frames ++ bridge ∧
          (((l.getD j default).point.interp = none ∨ j + 1 = l.length) → bridge = []) ∧
          (∀ cfg, (l.getD j default).point.interp = some cfg → j + 1 < l.length →
            bridge.length = (cfg.n_neb_images + 1) * (cfg.n_interp_images + 2))
  | [], _ => ⟨rfl, by intro j hj; simp at hj⟩
  | [x], _ => by
    refine ⟨rfl, ?_⟩
    intro j hj
    have hj0 : j = 0 := by
      simp only [List.length_singleton] at hj
      omega
    subst hj0
    refine ⟨rfl, rfl, [], by simp [interpolateSegs], fun _ => rfl, ?_⟩
    intro cfg _ hlt
    simp only [List.length_singleton] at hlt
    omega
  | x :: y :: t, s => by
    cases hcfg : x.point.interp with
    | none =>
      have ihp := interpolateSegs_facts (y :: t) s
      have hred : interpolateSegs (x :: y :: t) s
          = (x :: (interpolateSegs (y :: t) s).1, (interpolateSegs (y :: t) s).2) := by
        simp only [interpolateSegs, hcfg]
      rw [hred]
      refine ⟨by simp only [List.length_cons, ihp.1], ?_⟩
      intro j hj
      cases j with
      | zero =>
        refine ⟨rfl, rfl, [], by simp, fun _ => rfl, ?_⟩
        intro cfg hc _
        rw [List.getD_cons_zero, hcfg] at hc
        exact Option.noConfusion hc
      | succ j =>
        have hj' : j < (y :: t).length := by
          simp only [List.length_cons] at hj ⊢
          omega
        obtain ⟨hp, hat, bridge, hfrm, hnil, hblen⟩ := ihp.2 j hj'
        refine ⟨?_, ?_, bridge, ?_, ?_, ?_⟩
        · simpa only [List.getD_cons_succ] using hp
        · simpa only [List.getD_cons_succ] using hat
        · simpa only [List.getD_cons_succ] using hfrm
        · intro hcond
          refine hnil ?_
          rcases hcond with hc | hc
          · left
            simpa only [List.getD_cons_succ] using hc
          · right
            simp only [List.length_cons] at hc ⊢
            omega
        · intro cfg hc hlt
          refine hblen cfg ?_ ?_
          · simpa only [List.getD_cons_succ] using hc
          · simp only [List.length_cons] at hlt ⊢
            omega
    | some cfg =>
      have ihp := interpolateSegs_facts (y :: t)
        (interp_by_multiscale_neb x.atoms y.atoms cfg.n_neb_images cfg.n_interp_images
          cfg.interp cfg.calculator cfg.constraint cfg.fmax cfg.steps s).2
      have hred : interpolateSegs (x :: y :: t) s
          = ({ x with frames := x.frames ++ (interp_by_multiscale_neb x.atoms y.atoms
                cfg.n_neb_images cfg.n_interp_images cfg.interp cfg.calculator
                cfg.constraint cfg.fmax cfg.steps s).1 }
              :: (interpolateSegs (y :: t) (interp_by_multiscale_neb x.atoms y.atoms
                cfg.n_neb_images cfg.n_interp_images cfg.interp cfg.calculator
                cfg.constraint cfg.fmax cfg.steps s).2).1,
             (interpolateSegs (y :: t) (interp_by_multiscale_neb x.atoms y.atoms
                cfg.n_neb_images cfg.n_interp_images cfg.interp cfg.calculator
                cfg.constraint cfg.fmax cfg.steps s).2).2) := by
        simp only [interpolateSegs, hcfg]
      rw [hred]
      refine ⟨by simp only [List.length_cons, ihp.1], ?_⟩
      intro j hj
      cases j with
      | zero =>
        refine ⟨rfl, rfl,
          (interp_by_multiscale_neb x.atoms y.atoms cfg.n_neb_images cfg.n_interp_images
            cfg.interp cfg.calculator cfg.constraint cfg.fmax cfg.steps s).1, rfl, ?_, ?_⟩
        · intro hcond
          rcases hcond with hc | hc
          · rw [List.getD_cons_zero, hcfg] at hc
            exact Option.noConfusion hc
          · simp only [List.length_cons] at hc
            omega
        · intro cfg2 hc _
          rw [List.getD_cons_zero, hcfg] at hc
          have hceq : cfg = cfg2 := by
            injection hc
          subst hceq
          exact interp_by_multiscale_neb_length x.atoms y.atoms cfg.n_neb_images
            cfg.n_interp_images cfg.interp cfg.calculator cfg.constraint cfg.fmax
            cfg.steps s
      | succ j =>
        have hj' : j < (y :: t).length := by
          simp only [List.length_cons] at hj ⊢
          omega
        obtain ⟨hp, hat, bridge, hfrm, hnil, hblen⟩ := ihp.2 j hj'
        refine ⟨?_, ?_, bridge, ?_, ?_, ?_⟩
        · simpa only [List.getD_cons_succ] using hp
        · simpa only [List.getD_cons_succ] using hat
        · simpa only [List.getD_cons_succ] using hfrm
        · intro hcond
          refine hnil ?_
          rcases hcond with hc | hc
          · left
            simpa only [List.getD_cons_succ] using hc
          · right
            simp only [List.length_cons] at hc ⊢
            omega
        · intro cfg2 hc hlt
          refine hblen cfg2 ?_ ?_
          · simpa only [List.getD_cons_succ] using hc
          · simp only [List.length_cons] at hlt ⊢
            omega

theorem interp_PES_grouped_inv (fs : String → Option String → Int) (pts : List Point)
    (s : St) (seqs : List (List Atoms)) (s' : St)
    (h : interp_PES fs pts false s = Except.ok (PESResult.grouped seqs, s')) :
    ∃ imgs s1, resolvePoints fs pts [] s = Except.ok (imgs, s1) ∧
      seqs = ((interpolateSegs (imgs.map duplicate) s1).1).map Img.frames := by
  unfold interp_PES at h
  split at h
  · exact Except.noConfusion h
  · rename_i imgs s1 heq
    simp only [Bool.false_eq_true, if_false, Except.ok.injEq, Prod.mk.injEq,
      PESResult.grouped.injEq] at h
    obtain ⟨hseqs, _⟩ := h
    exact ⟨imgs, s1, heq, hseqs.symm⟩

/-- C3: the two-point example of the spec; the first point carries
duplication three and a multiscale bridge of two coarse and zero fine
images, the second point nothing.  The flattened path has exactly eleven
frames: one own configuration, three duplicates, a six-frame bridge, and
the configuration of the second point. -/
theorem C3_example_eleven (fs : String → Option String → Int) (a1 a2 : Atoms) (s : St) :
    ∃ path s', interp_PES fs
        [⟨none, none, some a1, some 3,
          some ⟨2, 0, "idpp", false, false, (1 : Rat) / 2, 10⟩, false⟩,
         ⟨none, none, some a2, none, none, false⟩] true s
      = Except.ok (PESResult.flat path, s') ∧ path.length = 11 :=
  ⟨_, _, rfl, rfl⟩

/-- C4: with flatten false the driver returns one frame sequence per
input point, in input order; each sequence is the configuration of the
point, then its duplicate frames, then its interpolation bridge toward
the successor, every part present exactly when configured (no bridge on
the last point or without an interp entry, and a bridge of multiscale
size otherwise). -/
theorem C4_grouped_structure (fs : String → Option String → Int) (points : List Point)
    (s : St) (seqs : List (List Atoms)) (s' : St)
    (h : interp_PES fs points false s = Except.ok (PESResult.grouped seqs, s')) :
    seqs.length = points.length ∧
    ∀ k, k < points.length →
      ∃ own bridge,
        seqs.getD k [] = own :: (List.replicate ((points.getD k default).dupl.getD 0) own
            ++ bridge) ∧
        (((points.getD k default).interp = none ∨ k + 1 = points.length) → bridge = []) ∧
        (∀ cfg, (points.getD k default).interp = some cfg → k + 1 < points.length →
          bridge.length = (cfg.n_neb_images + 1) * (cfg.n_interp_images + 2)) := by
  obtain ⟨imgs, s1, hres, hseqs⟩ := interp_PES_grouped_inv fs points s seqs s' h
  obtain ⟨hlen, _, hspec⟩ := resolvePoints_spec fs points [] s imgs s1 hres
  simp only [List.length_nil, Nat.zero_add] at hlen hspec
  have hifacts := interpolateSegs_facts (imgs.map duplicate) s1
  constructor
  · rw [hseqs, List.length_map, hifacts.1, List.length_map, hlen]
  · intro k hk
    have hk1 : k < imgs.length := by omega
    have hk2 : k < (imgs.map duplicate).length := by rw [List.length_map]; omega
    have hk3 : k < (interpolateSegs (imgs.map duplicate) s1).1.length := by
      rw [hifacts.1]; exact hk2
    have hseqk : seqs.getD k []
        = ((interpolateSegs (imgs.map duplicate) s1).1.getD k default).frames := by
      rw [hseqs, List.getD_eq_getElem _ _ (by rw [List.length_map]; exact hk3),
        List.getElem_map, List.getD_eq_getElem _ _ hk3]
    obtain ⟨hp, hat, bridge, hfrm, hnil, hblen⟩ := hifacts.2 k hk2
    have hmapk : (imgs.map duplicate).getD k default
        = duplicate (imgs.getD k default) := by
      rw [List.getD_eq_getElem _ _ hk2, List.getD_eq_getElem _ _ hk1, List.getElem_map]
    obtain ⟨hptk, hfrk, _⟩ := hspec k hk
    refine ⟨(imgs.getD k default).atoms, bridge, ?_, ?_, ?_⟩
    · rw [hseqk, hfrm, hmapk, duplicate_frames, hfrk, hptk]
      simp
    · intro hcond
      refine hnil ?_
      rcases hcond with hc | hc
      · left
        rw [hmapk, duplicate_point, hptk]
        exact hc
      · right
        rw [List.length_map, hlen]
        exact hc
    · intro cfg hc hlt
      refine hblen cfg ?_ ?_
      · rw [hmapk, duplicate_point, hptk]
        exact hc
      · rw [List.length_map, hlen]
        exact hlt

/-- C7: the driver reorients the configuration of point i against the
already-resolved configuration of point i minus one exactly when the
reorient key of point i is present (absent by default, and presence is
all the source tests); with the key absent the resolved configuration is
the loaded one, untouched.  The resolved configurations are read off as
the heads of the returned frame sequences. -/
theorem C7_reorient_iff (fs : String → Option String → Int) (points : List Point)
    (s : St) (seqs : List (List Atoms)) (s' : St)
    (h : interp_PES fs points false s = Except.ok (PESResult.grouped seqs, s'))
    (i : Nat) (h0 : 0 < i) (hi : i < points.length) :
    ∃ prev a₀ s₁ s₂,
      loadAtoms fs (points.getD i default) s₁ = Except.ok (a₀, s₂) ∧
      (seqs.getD (i - 1) []).head? = some prev ∧
      (seqs.getD i []).head? = some (if (points.getD i default).reorient = true
        then minimize_rotation_and_translation prev a₀ else a₀) := by
  obtain ⟨imgs, s1, hres, hseqs⟩ := interp_PES_grouped_inv fs points s seqs s' h
  obtain ⟨hlen, _, hspec⟩ := resolvePoints_spec fs points [] s imgs s1 hres
  simp only [List.length_nil, Nat.zero_add] at hlen hspec
  have hifacts := interpolateSegs_facts (imgs.map duplicate) s1
  have hhead : ∀ j, j < points.length →
      (seqs.getD j []).head? = some ((imgs.getD j default).atoms) := by
    intro j hj
    have hj1 : j < imgs.length := by omega
    have hj2 : j < (imgs.map duplicate).length := by rw [List.length_map]; omega
    have hj3 : j < (interpolateSegs (imgs.map duplicate) s1).1.length := by
      rw [hifacts.1]; exact hj2
    have hseqk : seqs.getD j []
        = ((interpolateSegs (imgs.map duplicate) s1).1.getD j default).frames := by
      rw [hseqs, List.getD_eq_getElem _ _ (by rw [List.length_map]; exact hj3),
        List.getElem_map, List.getD_eq_getElem _ _ hj3]
    obtain ⟨_, _, bridge, hfrm, _, _⟩ := hifacts.2 j hj2
    have hmapk : (imgs.map duplicate).getD j default
        = duplicate (imgs.getD j default) := by
      rw [List.getD_eq_getElem _ _ hj2, List.getD_eq_getElem _ _ hj1, List.getElem_map]
    obtain ⟨_, hfrk, _⟩ := hspec j hj
    rw [hseqk, hfrm, hmapk, duplicate_frames, hfrk]
    simp
  obtain ⟨_, _, s₁, s₂, a₀, hload, hchar⟩ := hspec i hi
  refine ⟨(imgs.getD (i - 1) default).atoms, a₀, s₁, s₂, hload,
    hhead (i - 1) (by omega), ?_⟩
  rw [hhead i hi]
  exact congrArg some hchar

/-- C8: requesting reorientation on the first point is fatal: with a
loadable first point the driver raises the IndexError coming from
indexing the empty list of already-resolved predecessors, surfaces it
immediately and returns no path. -/
theorem C8_reorient_first_fatal (fs : String → Option String → Int) (p : Point)
    (rest : List Point) (fl : Bool) (s : St) (a : Atoms) (s₁ : St)
    (hre : p.reorient = true)
    (hload : loadAtoms fs p s = Except.ok (a, s₁)) :
    interp_PES fs (p :: rest) fl s = Except.error PESError.indexError := by
  have hres : resolvePoints fs (p :: rest) [] s = Except.error PESError.indexError := by
    simp [resolvePoints, hload, hre, List.getLast?_nil]
  unfold interp_PES
  rw [hres]

/-- Tail of the driver after the resolution loop: duplication,
interpolation, and the flatten switch. -/
def pipelineAfter (imgs : List Img) (flatten : Bool) (s1 : St) :
    Except PESError (PESResult × St) :=
  let r := interpolateSegs (imgs.map duplicate) s1
  let frame_sets := r.1.map Img.frames
  if flatten then Except.ok (PESResult.flat frame_sets.flatten, r.2)
  else Except.ok (PESResult.grouped frame_sets, r.2)

theorem interp_PES_eq (fs : String → Option String → Int) (pts : List Point)
    (fl : Bool) (s : St) :
    interp_PES fs pts fl s =
      (match resolvePoints fs pts [] s with
       | Except.error e => Except.error e
       | Except.ok (imgs, s1) => pipelineAfter imgs fl s1) := rfl

theorem resolvePoints_append (fs : String → Option String → Int) :
    ∀ (xs ys : List Point) (acc : List Img) (s : St),
      resolvePoints fs (xs ++ ys) acc s =
        (match resolvePoints fs xs acc s with
         | Except.error e => Except.error e
         | Except.ok (acc', s1) => resolvePoints fs ys acc' s1)
  | [], _, _, _ => rfl
  | x :: xs, ys, acc, s => by
    show resolvePoints fs (x :: (xs ++ ys)) acc s = _
    simp only [resolvePoints]
    split
    · rfl
    · split
      · rfl
      · rename_i a s2 heq2
        exact resolvePoints_append fs xs ys
          (acc ++ [{ point := x, atoms := a, frames := [a] }]) s2

/-- Resolution of a single point against the accumulated images: the
load step followed by the optional alignment step. -/
def resolveOne (fs : String → Option String → Int) (q : Point) (acc : List Img)
    (s : St) : Except PESError (Atoms × St) :=
  match loadAtoms fs q s with
  | Except.error e => Except.error e
  | Except.ok (a0, s1) =>
    if q.reorient = true then
      match acc.getLast? with
      | none => Except.error PESError.indexError
      | some prev =>
        Except.ok (minimize_rotation_and_translation prev.atoms a0,
          { s1 with alignCalls := s1.alignCalls + 1 })
    else Except.ok (a0, s1)

theorem resolvePoints_single_eq (fs : String → Option String → Int) (q : Point)
    (acc : List Img) (s : St) :
    resolvePoints fs [q] acc s =
      (match resolveOne fs q acc s with
       | Except.error e => Except.error e
       | Except.ok (a, s2) =>
         Except.ok (acc ++ [{ point := q, atoms := a, frames := [a] }], s2)) := by
  cases hl : loadAtoms fs q s with
  | error e => simp [resolvePoints, resolveOne, hl]
  | ok as1 =>
    obtain ⟨a0, s1⟩ := as1
    by_cases hre : q.reorient = true
    · cases hlast : acc.getLast? with
      | none => simp [resolvePoints, resolveOne, hl, hre, hlast]
      | some prev => simp [resolvePoints, resolveOne, hl, hre, hlast]
    · simp [resolvePoints, resolveOne, hl, hre]

theorem resolveOne_interp_none (fs : String → Option String → Int) (q : Point)
    (acc : List Img) (s : St) :
    resolveOne fs { q with interp := none } acc s = resolveOne fs q acc s := rfl

theorem interpolateSegs_last_point (w w' : Img)
    (hat : w.atoms = w'.atoms) (hfr : w.frames = w'.frames) :
    ∀ (zs : List Img) (s : St),
      (interpolateSegs (zs ++ [w]) s).1.map Img.frames
        = (interpolateSegs (zs ++ [w']) s).1.map Img.frames ∧
      (interpolateSegs (zs ++ [w]) s).2 = (interpolateSegs (zs ++ [w']) s).2
  | [], s => by
    constructor
    · show ([w].map Img.frames) = ([w'].map Img.frames)
      simp [hfr]
    · rfl
  | [z], s => by
    cases hcfg : z.point.interp with
    | none =>
      have h1 : interpolateSegs ([z] ++ [w]) s
          = (z :: (interpolateSegs [w] s).1, (interpolateSegs [w] s).2) := by
        simp only [List.cons_append, List.nil_append]
        simp only [interpolateSegs, hcfg]
      have h2 : interpolateSegs ([z] ++ [w']) s
          = (z :: (interpolateSegs [w'] s).1, (interpolateSegs [w'] s).2) := by
        simp only [List.cons_append, List.nil_append]
        simp only [interpolateSegs, hcfg]
      rw [h1, h2]
      constructor
      · show z.frames :: [w].map Img.frames = z.frames :: [w'].map Img.frames
        simp [hfr]
      · rfl
    | some cfg =>
      have h1 : interpolateSegs ([z] ++ [w]) s
          = ({ z with frames := z.frames ++ (interp_by_multiscale_neb z.atoms w.atoms
                cfg.n_neb_images cfg.n_interp_images cfg.interp cfg.calculator
                cfg.constraint cfg.fmax cfg.steps s).1 } :: [w],
             (interp_by_multiscale_neb z.atoms w.atoms cfg.n_neb_images
                cfg.n_interp_images cfg.interp cfg.calculator cfg.constraint cfg.fmax
                cfg.steps s).2) := by
        simp only [List.cons_append, List.nil_append]
        simp only [interpolateSegs, hcfg]
      have h2 : interpolateSegs ([z] ++ [w']) s
          = ({ z with frames := z.frames ++ (interp_by_multiscale_neb z.atoms w'.atoms
                cfg.n_neb_images cfg.n_interp_images cfg.interp cfg.calculator
                cfg.constraint cfg.fmax cfg.steps s).1 } :: [w'],
             (interp_by_multiscale_neb z.atoms w'.atoms cfg.n_neb_images
                cfg.n_interp_images cfg.interp cfg.calculator cfg.constraint cfg.fmax
                cfg.steps s).2) := by
        simp only [List.cons_append, List.nil_append]
        simp only [interpolateSegs, hcfg]
      rw [h1, h2, hat]
      constructor
      · simp [hfr]
      · rfl
  | z1 :: z2 :: zs, s => by
    have ih := interpolateSegs_last_point w w' hat hfr (z2 :: zs)
    cases hcfg : z1.point.interp with
    | none =>
      have h1 : interpolateSegs ((z1 :: z2 :: zs) ++ [w]) s
          = (z1 :: (interpolateSegs ((z2 :: zs) ++ [w]) s).1,
             (interpolateSegs ((z2 :: zs) ++ [w]) s).2) := by
        simp only [List.cons_append]
        simp only [interpolateSegs, hcfg]
      have h2 : interpolateSegs ((z1 :: z2 :: zs) ++ [w']) s
          = (z1 :: (interpolateSegs ((z2 :: zs) ++ [w']) s).1,
             (interpolateSegs ((z2 :: zs) ++ [w']) s).2) := by
        simp only [List.cons_append]
        simp only [interpolateSegs, hcfg]
      rw [h1, h2]
      obtain ⟨ihf, ihs⟩ := ih s
      constructor
      · show z1.frames :: (interpolateSegs ((z2 :: zs) ++ [w]) s).1.map Img.frames
            = z1.frames :: (interpolateSegs ((z2 :: zs) ++ [w']) s).1.map Img.frames
        rw [ihf]
      · exact ihs
    | some cfg =>
      have h1 : interpolateSegs ((z1 :: z2 :: zs) ++ [w]) s
          = ({ z1 with frames := z1.frames ++ (interp_by_multiscale_neb z1.atoms z2.atoms
                cfg.n_neb_images cfg.n_interp_images cfg.interp cfg.calculator
                cfg.constraint cfg.fmax cfg.steps s).1 }
              :: (interpolateSegs ((z2 :: zs) ++ [w]) (interp_by_multiscale_neb z1.atoms
                z2.atoms cfg.n_neb_images cfg.n_interp_images cfg.interp cfg.calculator
                cfg.constraint cfg.fmax cfg.steps s).2).1,
             (interpolateSegs ((z2 :: zs) ++ [w]) (interp_by_multiscale_neb z1.atoms
                z2.atoms cfg.n_neb_images cfg.n_interp_images cfg.interp cfg.calculator
                cfg.constraint cfg.fmax cfg.steps s).2).2) := by
        simp only [List.cons_append]
        simp only [interpolateSegs, hcfg]
      have h2 : interpolateSegs ((z1 :: z2 :: zs) ++ [w']) s
          = ({ z1 with frames := z1.frames ++ (interp_by_multiscale_neb z1.atoms z2.atoms
                cfg.n_neb_images cfg.n_interp_images cfg.interp cfg.calculator
                cfg.constraint cfg.fmax cfg.steps s).1 }
              :: (interpolateSegs ((z2 :: zs) ++ [w']) (interp_by_multiscale_neb z1.atoms
                z2.atoms cfg.n_neb_images cfg.n_interp_images cfg.interp cfg.calculator
                cfg.constraint cfg.fmax cfg.steps s).2).1,
             (interpolateSegs ((z2 :: zs) ++ [w']) (interp_by_multiscale_neb z1.atoms
                z2.atoms cfg.n_neb_images cfg.n_interp_images cfg.interp cfg.calculator
                cfg.constraint cfg.fmax cfg.steps s).2).2) := by
        simp only [List.cons_append]
        simp only [interpolateSegs, hcfg]
      rw [h1, h2]
      obtain ⟨ihf, ihs⟩ := ih (interp_by_multiscale_neb z1.atoms z2.atoms
        cfg.n_neb_images cfg.n_interp_images cfg.interp cfg.calculator cfg.constraint
        cfg.fmax cfg.steps s).2
      constructor
      · show _ :: (interpolateSegs ((z2 :: zs) ++ [w]) _).1.map Img.frames
            = _ :: (interpolateSegs ((z2 :: zs) ++ [w']) _).1.map Img.frames
        rw [ihf]
      · exact ihs

/-- C10: an interp entry on the last point of the input is silently
ignored: the driver behaves identically, returning the same result in
the same final state and raising no error, whether or not the final
point carries an interpolation configuration. -/
theorem C10_last_interp_ignored (fs : String → Option String → Int) (ps : List Point)
    (p : Point) (fl : Bool) (s : St) :
    interp_PES fs (ps ++ [p]) fl s
      = interp_PES fs (ps ++ [{ p with interp := none }]) fl s := by
  rw [interp_PES_eq, interp_PES_eq]
  rw [resolvePoints_append fs ps [p] [] s,
      resolvePoints_append fs ps [{ p with interp := none }] [] s]
  cases resolvePoints fs ps [] s with
  | error e => rfl
  | ok accs =>
    obtain ⟨acc', s1⟩ := accs
    show (match resolvePoints fs [p] acc' s1 with
          | Except.error e => Except.error e
          | Except.ok (imgs, s2) => pipelineAfter imgs fl s2)
        = (match resolvePoints fs [{ p with interp := none }] acc' s1 with
          | Except.error e => Except.error e
          | Except.ok (imgs, s2) => pipelineAfter imgs fl s2)
    rw [resolvePoints_single_eq, resolvePoints_single_eq, resolveOne_interp_none]
    cases resolveOne fs p acc' s1 with
    | error e => rfl
    | ok as2 =>
      obtain ⟨a, s2⟩ := as2
      show pipelineAfter (acc' ++ [{ point := p, atoms := a, frames := [a] }]) fl s2
          = pipelineAfter
            (acc' ++ [{ point := { p with interp := none }, atoms := a, frames := [a] }])
            fl s2
      unfold pipelineAfter
      rw [List.map_append, List.map_append]
      have hlast := interpolateSegs_last_point
        (duplicate { point := p, atoms := a, frames := [a] })
        (duplicate { point := { p with interp := none }, atoms := a, frames := [a] })
        (by rw [duplicate_atoms, duplicate_atoms])
        (by rw [duplicate_frames, duplicate_frames])
        (acc'.map duplicate) s2
      simp only [List.map_cons, List.map_nil] at hlast ⊢
      rw [hlast.1, hlast.2]

/-!  Concrete fixtures used by the witnesses of the driver claims. -/

def wA1 : Atoms := ⟨0, 0, false, false⟩

def wA2 : Atoms := ⟨1, 4, false, false⟩

def wSt : St := ⟨2, 0, 0, 0⟩

def wFs : String → Option String → Int := fun _ _ => 0

def w4pts : List Point :=
  [⟨none, none, some wA1, some 1, none, false⟩,
   ⟨none, none, some wA2, none, none, false⟩]

def w4seqs : List (List Atoms) := [[wA1, wA1], [wA2]]

/-- Witness for C4 at a concrete input. -/
theorem C4_grouped_structure_witness :
    interp_PES wFs w4pts false wSt = Except.ok (PESResult.grouped w4seqs, wSt) ∧
    (w4seqs.length = w4pts.length ∧
     ∀ k, k < w4pts.length →
       ∃ own bridge,
         w4seqs.getD k [] = own :: (List.replicate ((w4pts.getD k default).dupl.getD 0)
             own ++ bridge) ∧
         (((w4pts.getD k default).interp = none ∨ k + 1 = w4pts.length) → bridge = []) ∧
         (∀ cfg, (w4pts.getD k default).interp = some cfg → k + 1 < w4pts.length →
           bridge.length = (cfg.n_neb_images + 1) * (cfg.n_interp_images + 2))) :=
  ⟨by rfl, C4_grouped_structure wFs w4pts wSt w4seqs wSt (by rfl)⟩

def w7pts : List Point :=
  [⟨none, none, some wA1, none, none, false⟩,
   ⟨none, none, some wA2, none, none, true⟩]

def w7seqs : List (List Atoms) := [[wA1], [⟨1, 2, false, false⟩]]

def w7st : St := ⟨2, 0, 0, 1⟩

/-- Witness for C7 at a concrete input: the second point carries the
reorient key and is aligned against the first. -/
theorem C7_reorient_iff_witness :
    (interp_PES wFs w7pts false wSt = Except.ok (PESResult.grouped w7seqs, w7st) ∧
     0 < 1 ∧ 1 < w7pts.length) ∧
    (∃ prev a₀ s₁ s₂,
      loadAtoms wFs (w7pts.getD 1 default) s₁ = Except.ok (a₀, s₂) ∧
      (w7seqs.getD (1 - 1) []).head? = some prev ∧
      (w7seqs.getD 1 []).head? = some (if (w7pts.getD 1 default).reorient = true
        then minimize_rotation_and_translation prev a₀ else a₀)) :=
  ⟨⟨by rfl, by decide, by decide⟩,
   C7_reorient_iff wFs w7pts wSt w7seqs w7st (by rfl) 1 (by decide) (by decide)⟩

def w8p : Point := ⟨none, none, some wA1, none, none, true⟩

/-- Witness for C8 at a concrete input: a reorient key on the first and
only point kills the driver with the IndexError. -/
theorem C8_reorient_first_fatal_witness :
    (w8p.reorient = true ∧ loadAtoms wFs w8p wSt = Except.ok (wA1, wSt)) ∧
    interp_PES wFs [w8p] true wSt = Except.error PESError.indexError :=
  ⟨⟨by decide, by rfl⟩,
   C8_reorient_first_fatal wFs w8p [] true wSt wA1 wSt (by decide) (by rfl)⟩

/-!  Heap-level view of the driver, for the frame-effect claim about the
input dictionaries.  Python dictionaries and frame lists are mutable
objects: this model tracks the dictionary store, the frame-list store and
the ambient state explicitly, mirroring the source statement by
statement at the level of object identity.  Geometry is tracked by the
value-level model above; here an Atoms object is just its identity, so a
read or an alignment touches only the ambient state. -/

/-- Python value stored in a point dictionary: strings, numbers,
references to Atoms objects, references to frame-list objects, the
nested interp keyword dictionary, and booleans. -/
inductive Val where
  | vstr : String → Val
  | vnat : Nat → Val
  | vatoms : Nat → Val
  | vframes : Nat → Val
  | vinterp : InterpCfg → Val
  | vbool : Bool → Val
  deriving DecidableEq, Repr

/-- The mutable heap as the driver sees it: dictionary objects and
frame-list objects, indexed by allocation order, plus the ambient
state. -/
structure Heap where
  dicts : List (List (String × Val))
  lists : List (List Val)
  st : St
  deriving DecidableEq, Repr

/-- Python d[k] on an insertion-ordered dictionary. -/
def dictLookup : List (String × Val) → String → Option Val
  | [], _ => none
  | e :: rest, k => if e.1 = k then some e.2 else dictLookup rest k

/-- Python d[k] = v: replace the value if the key exists, else append in
insertion order. -/
def dictSet : List (String × Val) → String → Val → List (String × Val)
  | [], k, v => [(k, v)]
  | e :: rest, k, v => if e.1 = k then (k, v) :: rest else e :: dictSet rest k v

/-- Heap-level first driver loop: img = dict(i) allocates a copy of the
input dictionary; the input dictionary itself is only read.  The atoms
object is the supplied reference or a freshly allocated one (a file read
allocates, alignment bumps the alignment counter; neither touches any
dictionary).  The atoms key and then the underscore-frames key are
written on the copy, the latter referencing a freshly allocated
one-element frame-list object. -/
def resolveLoopH : List Nat → List Nat → Heap → Except PESError (List Nat × Heap)
  | [], acc, h => Except.ok (acc, h)
  | d :: rest, acc, h =>
    let ie := h.dicts.getD d []
    let imgId := h.dicts.length
    let h1 : Heap := ⟨h.dicts ++ [ie], h.lists, h.st⟩
    match (match dictLookup ie "atoms" with
      | some (Val.vatoms a) => Except.ok (a, h1)
      | some _ => Except.error PESError.typeError
      | none =>
        match dictLookup ie "file" with
        | none => Except.error PESError.keyError
        | some _ =>
          Except.ok (h1.st.fresh,
            ⟨h1.dicts, h1.lists, { h1.st with fresh := h1.st.fresh + 1 }⟩)) with
    | Except.error e => Except.error e
    | Except.ok (a, h2) =>
      match (if (dictLookup ie "reorient").isSome then
          match acc.getLast? with
          | none => Except.error PESError.indexError
          | some _ =>
            Except.ok (⟨h2.dicts, h2.lists,
              { h2.st with alignCalls := h2.st.alignCalls + 1 }⟩ : Heap)
        else Except.ok h2) with
      | Except.error e => Except.error e
      | Except.ok h3 =>
        let fid := h3.lists.length
        let newImg := dictSet (dictSet (h3.dicts.getD imgId []) "atoms" (Val.vatoms a))
          "_frames" (Val.vframes fid)
        let h4 : Heap := ⟨h3.dicts.set imgId newImg, h3.lists ++ [[Val.vatoms a]], h3.st⟩
        resolveLoopH rest (acc ++ [imgId]) h4

/-- Heap-level duplication loop: reads the copy dictionaries and extends
the frame-list objects in place; no dictionary is written. -/
def duplLoopH : List Nat → Heap → Except PESError Heap
  | [], h => Except.ok h
  | d :: rest, h =>
    let de := h.dicts.getD d []
    match dictLookup de "dupl" with
    | none => duplLoopH rest h
    | some v =>
      match v, dictLookup de "atoms", dictLookup de "_frames" with
      | Val.vnat n, some (Val.vatoms a), some (Val.vframes fid) =>
        duplLoopH rest
          ⟨h.dicts, h.lists.set fid (h.lists.getD fid [] ++ List.replicate n (Val.vatoms a)),
           h.st⟩
      | _, _, _ => Except.error PESError.typeError

/-- Heap-level interpolation loop: for every consecutive pair of copy
dictionaries whose first member carries an interp key, compute the
bridge (the value-level interpolator supplies the allocation pattern:
the object identities of the returned frames and the updated ambient
state; heap-level geometry is not tracked) and extend the frame-list
object of the first member in place; no dictionary is written. -/
def interpLoopH : List Nat → Heap → Except PESError Heap
  | [], h => Except.ok h
  | [_], h => Except.ok h
  | c :: d :: rest, h =>
    let ce := h.dicts.getD c []
    match dictLookup ce "interp" with
    | none => interpLoopH (d :: rest) h
    | some v =>
      match v, dictLookup ce "atoms", dictLookup (h.dicts.getD d []) "atoms",
          dictLookup ce "_frames" with
      | Val.vinterp cfg, some (Val.vatoms a), some (Val.vatoms b),
          some (Val.vframes fid) =>
        let r := interp_by_multiscale_neb ⟨a, 0, false, false⟩ ⟨b, 0, false, false⟩
          cfg.n_neb_images cfg.n_interp_images cfg.interp cfg.calculator cfg.constraint
          cfg.fmax cfg.steps h.st
        interpLoopH (d :: rest)
          ⟨h.dicts,
           h.lists.set fid (h.lists.getD fid [] ++ r.1.map (fun x => Val.vatoms x.oid)),
           r.2⟩
      | _, _, _, _ => Except.error PESError.typeError

/-- Heap-level view of interp_PES: the three loops in order.  The
returned value is the list of frame-list object ids of the points, in
point order, together with the final heap. -/
def interp_PES_heap (inIds : List Nat) (h : Heap) :
    Except PESError (List Nat × Heap) :=
  match resolveLoopH inIds [] h with
  | Except.error e => Except.error e
  | Except.ok (imgIds, h1) =>
    match duplLoopH imgIds h1 with
    | Except.error e => Except.error e
    | Except.ok h2 =>
      match interpLoopH imgIds h2 with
      | Except.error e => Except.error e
      | Except.ok h3 =>
        Except.ok (imgIds.map (fun d =>
          match dictLookup (h3.dicts.getD d []) "_frames" with
          | some (Val.vframes fid) => fid
          | _ => 0), h3)

theorem dictLookup_dictSet_self : ∀ (e : List (String × Val)) (k : String) (v : Val),
    dictLookup (dictSet e k v) k = some v
  | [], k, v => by simp [dictSet, dictLookup]
  | x :: rest, k, v => by
    by_cases hk : x.1 = k
    · simp [dictSet, dictLookup, hk]
    · simp [dictSet, dictLookup, hk, dictLookup_dictSet_self rest k v]

theorem dictLookup_dictSet_ne : ∀ (e : List (String × Val)) (k k' : String) (v : Val),
    k' ≠ k → dictLookup (dictSet e k v) k' = dictLookup e k'
  | [], k, k', v, hne => by simp [dictSet, dictLookup, Ne.symm hne]
  | x :: rest, k, k', v, hne => by
    by_cases hk : x.1 = k
    · subst hk
      simp [dictSet, dictLookup, Ne.symm hne]
    · simp only [dictSet, if_neg hk, dictLookup]
      rw [dictLookup_dictSet_ne rest k k' v hne]

theorem duplLoopH_dicts : ∀ (ids : List Nat) (h h' : Heap),
    duplLoopH ids h = Except.ok h' → h'.dicts = h.dicts
  | [], h, h', hequ => by
    simp only [duplLoopH, Except.ok.injEq] at hequ
    rw [← hequ]
  | d :: rest, h, h', hequ => by
    simp only [duplLoopH] at hequ
    split at hequ
    · exact duplLoopH_dicts rest _ h' hequ
    · split at hequ
      all_goals first
        | (have hd := duplLoopH_dicts rest _ h' hequ; exact hd)
        | exact Except.noConfusion hequ

theorem interpLoopH_dicts : ∀ (ids : List Nat) (h h' : Heap),
    interpLoopH ids h = Except.ok h' → h'.dicts = h.dicts
  | [], h, h', hequ => by
    simp only [interpLoopH, Except.ok.injEq] at hequ
    rw [← hequ]
  | [_], h, h', hequ => by
    simp only [interpLoopH, Except.ok.injEq] at hequ
    rw [← hequ]
  | c :: d :: rest, h, h', hequ => by
    simp only [interpLoopH] at hequ
    split at hequ
    · exact interpLoopH_dicts (d :: rest) _ h' hequ
    · split at hequ
      all_goals first
        | (have hd := interpLoopH_dicts (d :: rest) _ h' hequ; exact hd)
        | exact Except.noConfusion hequ

theorem resolveLoopH_spec : ∀ (ids acc : List Nat) (h : Heap) (out : List Nat × Heap),
    resolveLoopH ids acc h = Except.ok out →
    out.2.dicts.length = h.dicts.length + ids.length ∧
    (∀ j, j < h.dicts.length → out.2.dicts.getD j [] = h.dicts.getD j []) ∧
    (∀ j, j < ids.length →
      (dictLookup (out.2.dicts.getD (h.dicts.length + j) []) "atoms").isSome = true ∧
      (dictLookup (out.2.dicts.getD (h.dicts.length + j) []) "_frames").isSome = true)
  | [], acc, h, out, hequ => by
    simp only [resolveLoopH, Except.ok.injEq] at hequ
    rw [← hequ]
    refine ⟨rfl, fun j _ => rfl, ?_⟩
    intro j hj
    simp at hj
  | d :: rest, acc, h, out, hequ => by
    simp only [resolveLoopH] at hequ
    split at hequ
    · exact Except.noConfusion hequ
    · rename_i a h2 heq2
      have hd2 : h2.dicts = h.dicts ++ [h.dicts.getD d []] := by
        split at heq2
        · simp only [Except.ok.injEq, Prod.mk.injEq] at heq2
          rw [← heq2.2]
        · exact Except.noConfusion heq2
        · split at heq2
          · exact Except.noConfusion heq2
          · simp only [Except.ok.injEq, Prod.mk.injEq] at heq2
            rw [← heq2.2]
      split at hequ
      · exact Except.noConfusion hequ
      · rename_i h3 heq3
        have hd3 : h3.dicts = h2.dicts := by
          split at heq3
          · split at heq3
            · exact Except.noConfusion heq3
            · simp only [Except.ok.injEq] at heq3
              rw [← heq3]
          · simp only [Except.ok.injEq] at heq3
            rw [← heq3]
        obtain ⟨ih1, ih2, ih3⟩ := resolveLoopH_spec rest (acc ++ [h.dicts.length]) _ out hequ
        have hlen3 : h3.dicts.length = h.dicts.length + 1 := by
          rw [hd3, hd2, List.length_append, List.length_cons, List.length_nil]
        have hset_len : (h3.dicts.set h.dicts.length
            (dictSet (dictSet (h3.dicts.getD h.dicts.length []) "atoms" (Val.vatoms a))
              "_frames" (Val.vframes h3.lists.length))).length
            = h.dicts.length + 1 := by
          rw [List.length_set, hlen3]
        refine ⟨?_, ?_, ?_⟩
        · rw [ih1, hset_len, List.length_cons]
          omega
        · intro j hj
          rw [ih2 j (by rw [hset_len]; omega)]
          have hj3 : j < h3.dicts.length := by omega
          have hjs : j < (h3.dicts.set h.dicts.length
              (dictSet (dictSet (h3.dicts.getD h.dicts.length []) "atoms" (Val.vatoms a))
                "_frames" (Val.vframes h3.lists.length))).length := by
            rw [hset_len]; omega
          rw [List.getD_eq_getElem _ _ hjs, List.getElem_set]
          rw [if_neg (by omega)]
          rw [← List.getD_eq_getElem h3.dicts [] hj3]
          rw [hd3, hd2]
          exact List.getD_append _ _ _ _ hj
        · intro j hj
          cases j with
          | zero =>
            have hlt : h.dicts.length + 0 < h.dicts.length + 1 := by omega
            rw [ih2 (h.dicts.length + 0) (by rw [hset_len]; omega)]
            have hjs : h.dicts.length + 0 < (h3.dicts.set h.dicts.length
                (dictSet (dictSet (h3.dicts.getD h.dicts.length []) "atoms" (Val.vatoms a))
                  "_frames" (Val.vframes h3.lists.length))).length := by
              rw [hset_len]; omega
            rw [List.getD_eq_getElem _ _ hjs, List.getElem_set]
            rw [if_pos (by omega)]
            constructor
            · rw [dictLookup_dictSet_ne _ _ _ _ (by decide), dictLookup_dictSet_self]
              rfl
            · rw [dictLookup_dictSet_self]
              rfl
          | succ j =>
            have hj' : j < rest.length := by
              rw [List.length_cons] at hj
              omega
            have h5 := ih3 j hj'
            have hidx : h.dicts.length + (j + 1) = h.dicts.length + 1 + j := by omega
            rw [hidx]
            rw [show (h3.dicts.set h.dicts.length
                (dictSet (dictSet (h3.dicts.getD h.dicts.length []) "atoms" (Val.vatoms a))
                  "_frames" (Val.vframes h3.lists.length))).length
                = h.dicts.length + 1 from hset_len] at h5
            exact h5

/-- C9: the driver never mutates its input structure: at the heap level
every input point dictionary is shallow-copied before any key is
written, so after a successful run every input dictionary holds exactly
its original entries, while the internal atoms and underscore-frames
keys exist on the dictionary copies. -/
theorem C9_input_dicts_unchanged (inIds : List Nat) (h : Heap)
    (out : List Nat × Heap) (hok : interp_PES_heap inIds h = Except.ok out) :
    (∀ d, d < h.dicts.length → out.2.dicts.getD d [] = h.dicts.getD d []) ∧
    (∀ j, j < inIds.length →
      (dictLookup (out.2.dicts.getD (h.dicts.length + j) []) "atoms").isSome = true ∧
      (dictLookup (out.2.dicts.getD (h.dicts.length + j) []) "_frames").isSome
        = true) := by
  unfold interp_PES_heap at hok
  split at hok
  · exact Except.noConfusion hok
  · rename_i imgIds h1 heq1
    split at hok
    · exact Except.noConfusion hok
    · rename_i h2 heq2
      split at hok
      · exact Except.noConfusion hok
      · rename_i h3 heq3
        simp only [Except.ok.injEq] at hok
        obtain ⟨hres1, hres2, hres3⟩ := resolveLoopH_spec inIds [] h (imgIds, h1) heq1
        have hdd : out.2.dicts = h1.dicts := by
          rw [← hok]
          show h3.dicts = h1.dicts
          rw [interpLoopH_dicts imgIds h2 h3 heq3, duplLoopH_dicts imgIds h1 h2 heq2]
        constructor
        · intro dd hdlt
          rw [hdd]
          exact hres2 dd hdlt
        · intro j hj
          rw [hdd]
          exact hres3 j hj

def w9heap : Heap := ⟨[[("atoms", Val.vatoms 7)]], [], ⟨8, 0, 0, 0⟩⟩

def w9out : List Nat × Heap :=
  ([0],
   ⟨[[("atoms", Val.vatoms 7)], [("atoms", Val.vatoms 7), ("_frames", Val.vframes 0)]],
    [[Val.vatoms 7]], ⟨8, 0, 0, 0⟩⟩)

/-- Witness for C9 at a concrete input: one input dictionary supplying
its atoms; after the run it is unchanged and the copy carries the two
internal keys. -/
theorem C9_input_dicts_unchanged_witness :
    interp_PES_heap [0] w9heap = Except.ok w9out ∧
    ((∀ d, d < w9heap.dicts.length → w9out.2.dicts.getD d [] = w9heap.dicts.getD d []) ∧
     (∀ j, j < ([0] : List Nat).length →
       (dictLookup (w9out.2.dicts.getD (w9heap.dicts.length + j) []) "atoms").isSome
         = true ∧
       (dictLookup (w9out.2.dicts.getD (w9heap.dicts.length + j) []) "_frames").isSome
         = true)) :=
  ⟨by rfl, C9_input_dicts_unchanged [0] w9heap w9out (by rfl)⟩

end InterpPES
